import Mathlib

/-
Shallow embedding of src/info-actions/site/common/js/usefuls.js.

Modelling conventions:
- JS strings are modelled as lists of characters (`Str`).
- JS numbers are modelled as integers; IEEE-754 fractional values are outside
  the model, so the JSON number grammar is restricted to integer numerals.
- Host primitives used by the source (JSON.parse, JSON.stringify,
  encodeURIComponent, decodeURIComponent, DOM querying, IntersectionObserver,
  script elements) are modelled explicitly below.  The URI coder works at the
  code-point level: characters below 256 are percent-encoded as a single %XX
  byte and larger code points pass through verbatim, so multi-byte UTF-8
  percent sequences are outside the model.  decodeURIComponent is modelled
  leniently: a malformed percent escape is kept verbatim instead of raising
  URIError.  The JSON string grammar is modelled without \uXXXX escapes.
- JS `undefined` flowing into a string position is modelled by `Option.getD`
  with the coerced text "undefined", mirroring ToString(undefined).
-/

abbrev Str := List Char

def lbraceC : Char := Char.ofNat 123

def rbraceC : Char := Char.ofNat 125

def apostC : Char := Char.ofNat 39

/-- Model of JS `String.prototype.split` with a one-character separator. -/
def splitOnChar (sep : Char) : Str → List Str
  | [] => [[]]
  | c :: rest =>
    if c = sep then [] :: splitOnChar sep rest
    else
      match splitOnChar sep rest with
      | [] => [[c]]
      | s :: ss => (c :: s) :: ss

/-- Model of JS `Array.prototype.join` with a one-character separator. -/
def joinChar (sep : Char) : List Str → Str
  | [] => []
  | [x] => x
  | x :: xs => x ++ sep :: joinChar sep xs

def hexVal (c : Char) : Option Nat :=
  if '0' ≤ c ∧ c ≤ '9' then some (c.toNat - 48)
  else if 'A' ≤ c ∧ c ≤ 'F' then some (c.toNat - 55)
  else if 'a' ≤ c ∧ c ≤ 'f' then some (c.toNat - 87)
  else none

def hexDigitCharU (n : Nat) : Char :=
  if n < 10 then Char.ofNat (48 + n) else Char.ofNat (55 + n)

/-- The characters encodeURIComponent leaves unescaped. -/
def unreservedURI (c : Char) : Bool :=
  (('A' ≤ c && c ≤ 'Z') || ('a' ≤ c && c ≤ 'z') || ('0' ≤ c && c ≤ '9')) ||
    (c = '-' || c = '_' || c = '.' || c = '!' || c = '~' || c = '*' ||
      c = apostC || c = '(' || c = ')')

def encodeChar (c : Char) : Str :=
  if unreservedURI c then [c]
  else if c.toNat < 256 then
    ['%', hexDigitCharU (c.toNat / 16), hexDigitCharU (c.toNat % 16)]
  else [c]

/-- Model of the host primitive `encodeURIComponent`. -/
def encodeURIComponentChars : Str → Str
  | [] => []
  | c :: rest => encodeChar c ++ encodeURIComponentChars rest

/-- Model of the host primitive `decodeURIComponent` (lenient on bad escapes). -/
def decodeURIComponentChars : Str → Str
  | [] => []
  | '%' :: c1 :: c2 :: rest2 =>
    (match hexVal c1, hexVal c2 with
     | some h, some lo => Char.ofNat (16 * h + lo) :: decodeURIComponentChars rest2
     | _, _ => '%' :: decodeURIComponentChars (c1 :: c2 :: rest2))
  | c :: rest => c :: decodeURIComponentChars rest

def digitCharOf (d : Nat) : Char := Char.ofNat (48 + d)

/-- Big-endian decimal digits of a positive number, with `fuel ≥ n`. -/
def natCharsFuel : Nat → Nat → Str
  | 0, _ => []
  | fuel + 1, n =>
    if n = 0 then [] else natCharsFuel fuel (n / 10) ++ [digitCharOf (n % 10)]

/-- Decimal digits of a natural number, most significant first. -/
def natChars (n : Nat) : Str :=
  if n = 0 then ['0'] else natCharsFuel n n

/-- Model of JS number-to-string coercion, restricted to integers. -/
def intChars (n : Int) : Str :=
  if n < 0 then '-' :: natChars n.natAbs else natChars n.natAbs

def natFromDigitChars (ds : Str) : Nat :=
  ds.foldl (fun a c => 10 * a + (c.toNat - 48)) 0

/-- JSON integer numerals: non-empty digit run without a redundant leading zero. -/
def legalNatChars : Str → Bool
  | [] => false
  | '0' :: rest => rest.isEmpty
  | _ :: _ => true

def escapeChar (c : Char) : Str :=
  if c = '"' then ['\\', '"']
  else if c = '\\' then ['\\', '\\']
  else if c = Char.ofNat 10 then ['\\', 'n']
  else if c = Char.ofNat 9 then ['\\', 't']
  else if c = Char.ofNat 13 then ['\\', 'r']
  else if c = Char.ofNat 8 then ['\\', 'b']
  else if c = Char.ofNat 12 then ['\\', 'f']
  else [c]

def escapeStr : Str → Str
  | [] => []
  | c :: rest => escapeChar c ++ escapeStr rest

def unescapeChar (e : Char) : Option Char :=
  if e = '"' then some '"'
  else if e = '\\' then some '\\'
  else if e = '/' then some '/'
  else if e = 'n' then some (Char.ofNat 10)
  else if e = 't' then some (Char.ofNat 9)
  else if e = 'r' then some (Char.ofNat 13)
  else if e = 'b' then some (Char.ofNat 8)
  else if e = 'f' then some (Char.ofNat 12)
  else none

/-- Parse the body of a JSON string after the opening quote. -/
def parseStrBody : Str → Option (Str × Str)
  | [] => none
  | c :: rest =>
    if c = '"' then some ([], rest)
    else if c = '\\' then
      match rest with
      | [] => none
      | e :: rest2 =>
        match unescapeChar e with
        | some u => (parseStrBody rest2).map (fun p => (u :: p.1, p.2))
        | none => none
    else (parseStrBody rest).map (fun p => (c :: p.1, p.2))

/-- JSON values as manipulated by the script: objects are ordered member lists. -/
inductive Json where
  | null
  | bool (b : Bool)
  | num (n : Int)
  | str (s : Str)
  | arr (items : List Json)
  | obj (members : List (Str × Json))

mutual

/-- Model of the host primitive `JSON.stringify`. -/
def jsonChars : Json → Str
  | .null => "null".data
  | .bool true => "true".data
  | .bool false => "false".data
  | .num n => intChars n
  | .str s => '"' :: (escapeStr s ++ ['"'])
  | .arr [] => ['[', ']']
  | .arr (j :: tl) => '[' :: (jsonChars j ++ itemsChars tl ++ [']'])
  | .obj [] => [lbraceC, rbraceC]
  | .obj ((k, v) :: tl) =>
    lbraceC :: ('"' :: (escapeStr k ++ '"' :: ':' :: jsonChars v) ++
      membersChars tl ++ [rbraceC])

def itemsChars : List Json → Str
  | [] => []
  | j :: tl => ',' :: (jsonChars j ++ itemsChars tl)

def membersChars : List (Str × Json) → Str
  | [] => []
  | (k, v) :: tl =>
    ',' :: ('"' :: (escapeStr k ++ '"' :: ':' :: jsonChars v)) ++ membersChars tl

end

/-- Dispatch of the JSON value parser on the first character; the fuelled
continuations for values, array tails and object tails are passed in. -/
def parseValHead (pv : Str → Option (Json × Str))
    (pi : Str → Option (List Json × Str))
    (pm : Str → Option (List (Str × Json) × Str))
    (c : Char) (rest : Str) : Option (Json × Str) :=
  if c = 'n' then
    match rest with
    | 'u' :: 'l' :: 'l' :: r => some (.null, r)
    | _ => none
  else if c = 't' then
    match rest with
    | 'r' :: 'u' :: 'e' :: r => some (.bool true, r)
    | _ => none
  else if c = 'f' then
    match rest with
    | 'a' :: 'l' :: 's' :: 'e' :: r => some (.bool false, r)
    | _ => none
  else if c = '"' then
    (parseStrBody rest).map (fun p => (.str p.1, p.2))
  else if c = '-' then
    if legalNatChars (rest.takeWhile Char.isDigit) then
      some (.num (-(natFromDigitChars (rest.takeWhile Char.isDigit) : Int)),
        rest.dropWhile Char.isDigit)
    else none
  else if c = '[' then
    match rest with
    | ']' :: r => some (.arr [], r)
    | _ =>
      match pv rest with
      | none => none
      | some (j, r) =>
        match pi r with
        | none => none
        | some (js, r2) => some (.arr (j :: js), r2)
  else if c = lbraceC then
    if rest.head? = some rbraceC then some (.obj [], rest.tail)
    else
      match rest with
      | '"' :: rk =>
        match parseStrBody rk with
        | none => none
        | some (k, r1) =>
          match r1 with
          | ':' :: r2 =>
            match pv r2 with
            | none => none
            | some (v, r3) =>
              match pm r3 with
              | none => none
              | some (ms, r4) => some (.obj ((k, v) :: ms), r4)
          | _ => none
      | _ => none
  else if c.isDigit then
    if legalNatChars ((c :: rest).takeWhile Char.isDigit) then
      some (.num (natFromDigitChars ((c :: rest).takeWhile Char.isDigit) : Int),
        (c :: rest).dropWhile Char.isDigit)
    else none
  else none

/-- Dispatch of the array-tail parser on the first character. -/
def parseItemsHead (pv : Str → Option (Json × Str))
    (pi : Str → Option (List Json × Str))
    (c : Char) (rest : Str) : Option (List Json × Str) :=
  if c = ']' then some ([], rest)
  else if c = ',' then
    match pv rest with
    | none => none
    | some (j, r) =>
      match pi r with
      | none => none
      | some (js, r2) => some (j :: js, r2)
  else none

/-- Dispatch of the object-tail parser on the first character. -/
def parseMembersHead (pv : Str → Option (Json × Str))
    (pm : Str → Option (List (Str × Json) × Str))
    (c : Char) (rest : Str) : Option (List (Str × Json) × Str) :=
  if c = rbraceC then some ([], rest)
  else if c = ',' then
    match rest with
    | '"' :: rk =>
      match parseStrBody rk with
      | none => none
      | some (k, r1) =>
        match r1 with
        | ':' :: r2 =>
          match pv r2 with
          | none => none
          | some (v, r3) =>
            match pm r3 with
            | none => none
            | some (ms, r4) => some ((k, v) :: ms, r4)
        | _ => none
    | _ => none
  else none

mutual

/-- Fuel-indexed JSON value parser (model of `JSON.parse`, see header notes). -/
def parseV : Nat → Str → Option (Json × Str)
  | 0, _ => none
  | _ + 1, [] => none
  | f + 1, c :: rest =>
    parseValHead (parseV f) (parseItems f) (parseMembers f) c rest

/-- Parser for the tail of an array, after the first item. -/
def parseItems : Nat → Str → Option (List Json × Str)
  | 0, _ => none
  | _ + 1, [] => none
  | f + 1, c :: rest => parseItemsHead (parseV f) (parseItems f) c rest

/-- Parser for the tail of an object, after the first member. -/
def parseMembers : Nat → Str → Option (List (Str × Json) × Str)
  | 0, _ => none
  | _ + 1, [] => none
  | f + 1, c :: rest => parseMembersHead (parseV f) (parseMembers f) c rest

end

/-- Model of the host primitive `JSON.parse` (must consume the whole input). -/
def jsonParse (l : Str) : Option Json :=
  match parseV (l.length + 1) l with
  | some (j, []) => some j
  | _ => none

def uStr : Str := "undefined".data

/--
Value decoding step of `queryParam`:
`try params[key] = JSON.parse(decodeURIComponent(value)) catch params[key] = decodeURIComponent(value)`.
A missing value (pair without '=') is JS `undefined`, which `decodeURIComponent`
coerces to the text "undefined".
-/
def decodeValue (v : Option Str) : Json :=
  let s := decodeURIComponentChars (v.getD uStr)
  match jsonParse s with
  | some j => j
  | none => .str s

/-- Model of JS object property assignment `params[key] = v`. -/
def setKey (ps : List (Str × Json)) (k : Str) (v : Json) : List (Str × Json) :=
  match ps with
  | [] => [(k, v)]
  | (k', v') :: rest => if k' = k then (k', v) :: rest else (k', v') :: setKey rest k v

/-- `const [key, value] = kv.split('=')`: the key component. -/
def pairKeyOf (kv : Str) : Str := (splitOnChar '=' kv).headD []

/-- `const [key, value] = kv.split('=')` followed by the value decode. -/
def pairValOf (kv : Str) : Json := decodeValue (splitOnChar '=' kv)[1]?

/-- One iteration of `queryParam`'s forEach over the split pairs. -/
def qpStep (ps : List (Str × Json)) (kv : Str) : List (Str × Json) :=
  if kv = [] then ps else setKey ps (pairKeyOf kv) (pairValOf kv)

/-- `queryParam` without the single-key projection: the params object it builds. -/
def queryParamAll (source : Str) : List (Str × Json) :=
  ((splitOnChar '&' ((splitOnChar '?' source).getD 1 [])).foldl qpStep [])

def lookupValue (k : Str) (ps : List (Str × Json)) : Option Json :=
  (ps.find? (fun kv => kv.1 == k)).map Prod.snd

/-- `queryParam(p, source)` with a non-empty key: projects one parameter. -/
def queryParam (p : Str) (source : Str) : Option Json :=
  lookupValue p (queryParamAll source)

/-- `typeof v === 'object'` on the modelled value universe (null included). -/
def isObjType : Json → Bool
  | .null => true
  | .arr _ => true
  | .obj _ => true
  | _ => false

/-- JS template-string coercion of a modelled primitive value. -/
def jsValueText : Json → Str
  | .str s => s
  | .num n => intChars n
  | .bool true => "true".data
  | .bool false => "false".data
  | v => jsonChars v

/-- `typeof v === 'object' ? JSON.stringify(v) : v` under template coercion. -/
def paramValueString (v : Json) : Str :=
  if isObjType v then jsonChars v else jsValueText v

/-- One `key=value` output pair of `params2query`: the raw key, then the
URL-encoded serialized value. -/
def paramPairChars (kv : Str × Json) : Str :=
  kv.1 ++ '=' :: encodeURIComponentChars (paramValueString kv.2)

/-- Model of `params2query`. -/
def params2query (p : List (Str × Json)) : Str :=
  joinChar '&' (p.map paramPairChars)

/-- Specification-side: the value produced by serializing then re-parsing. -/
def roundTripValue (v : Json) : Json :=
  match jsonParse (paramValueString v) with
  | some j => j
  | none => .str (paramValueString v)

/-- Specification-side: decoded values of the non-empty pairs among `pairs`
that carry key `k`, in order. -/
def qpOccs (pairs : List Str) (k : Str) : List Json :=
  (pairs.filter (fun kv => !kv.isEmpty && pairKeyOf kv == k)).map pairValOf

/-- Specification-side: decoded values of the non-empty pairs that carry key
`k` in the query string of `source`, in source order. -/
def keyOccurrences (source : Str) (k : Str) : List Json :=
  qpOccs (splitOnChar '&' ((splitOnChar '?' source).getD 1 [])) k

/-- DOM node references, abstract identities. -/
structure Node where
  id : Nat
deriving DecidableEq

/-- The document, reduced to its selector-resolution capability. -/
structure Document where
  queryAll : Str → List Node

/-- Non-node JS values that can reach `arrayOfNodesWith` (the unsupported shapes). -/
inductive JsPrim where
  | num (n : Int)
  | boolean (b : Bool)
  | nullv
  | undef
  | plainObj
deriving DecidableEq

/-- Errors raised by the helpers: the unsupported-input error carries the value. -/
inductive JsError where
  | unsupportedInput (v : JsPrim)
deriving DecidableEq

/-- Runtime shapes dispatched on by `arrayOfNodesWith`, in the source's order. -/
inductive NodeInput where
  | jq (nodes : List Node)
  | arrInput (items : List NodeInput)
  | node (n : Node)
  | nodeList (ns : List Node)
  | htmlCollection (ns : List Node)
  | selector (s : Str)
  | other (v : JsPrim)

mutual

/-- Model of `arrayOfNodesWith`: dispatch on the input shape; a thrown error is
an `Except.error`. -/
def arrayOfNodesWith (doc : Document) : NodeInput → Except JsError (List Node)
  | .jq nodes => .ok nodes
  | .arrInput items => arrayOfNodesWithList doc items
  | .node n => .ok [n]
  | .nodeList ns => .ok ns
  | .htmlCollection ns => .ok ns
  | .selector s => .ok (doc.queryAll s)
  | .other v => .error (.unsupportedInput v)

/-- `what.flatMap(item => arrayOfNodesWith(item))`, left to right, errors propagate. -/
def arrayOfNodesWithList (doc : Document) : List NodeInput → Except JsError (List Node)
  | [] => .ok []
  | it :: rest =>
    match arrayOfNodesWith doc it with
    | .error e => .error e
    | .ok a =>
      match arrayOfNodesWithList doc rest with
      | .error e => .error e
      | .ok b => .ok (a ++ b)

end

/-- IntersectionObserver options: only the threshold key is relevant here. -/
structure IOpts where
  threshold : Option ℚ := none

/-- A constructed IntersectionObserver: merged threshold plus observed targets. -/
structure ObserverRec where
  threshold : ℚ
  targets : List Node
deriving DecidableEq

/-- Model of `watchIntersection`'s construction side: build the observer with
the spread-merged options, then observe every normalized node. -/
def watchIntersection (doc : Document) (targets : NodeInput) (options : IOpts) :
    Except JsError ObserverRec :=
  match arrayOfNodesWith doc targets with
  | .error e => .error e
  | .ok nodes => .ok { threshold := options.threshold.getD 1, targets := nodes }

/-- One entry delivered to the observer callback. -/
structure IOEntry where
  target : Node
  isIntersecting : Bool
deriving DecidableEq

/-- Which handler the observer callback invokes, with its target argument. -/
inductive HandlerCall where
  | enter (t : Node)
  | exitCall (t : Node)
deriving DecidableEq

/-- Model of `watchIntersection`'s observer callback: per entry, the optional
enter handler when intersecting, else the optional exit handler. -/
def intersectionCallback (hasYes hasNo : Bool) : List IOEntry → List HandlerCall
  | [] => []
  | e :: rest =>
    (if e.isIntersecting then (if hasYes then [.enter e.target] else [])
     else (if hasNo then [.exitCall e.target] else [])) ++
      intersectionCallback hasYes hasNo rest

/-- Events a script element can see after being appended. -/
inductive ScriptEv where
  | load
  | errorEv
deriving DecidableEq

/-- Actions performed by `preloadScript`'s load listener, in order. -/
inductive PAct where
  | removeEl
  | callCb
  | resolve
deriving DecidableEq

/-- State of one `preloadScript` call: element presence, callback runs,
promise resolution, and the ordered action trace. -/
structure PreloadState where
  inDoc : Bool
  cbRuns : Nat
  resolved : Bool
  trace : List PAct
deriving DecidableEq

/-- Initial state right after `document.head.append(scriptEl)`. -/
def preloadInit : PreloadState :=
  { inDoc := true, cbRuns := 0, resolved := false, trace := [] }

/-- The load listener body: `scriptEl.remove(); cb?.(); resolve()`. -/
def preloadOnLoad (hasCb : Bool) (s : PreloadState) : PreloadState :=
  let s1 := { s with inDoc := false, trace := s.trace ++ [PAct.removeEl] }
  let s2 :=
    if hasCb then { s1 with cbRuns := s1.cbRuns + 1, trace := s1.trace ++ [PAct.callCb] }
    else s1
  { s2 with resolved := true, trace := s2.trace ++ [PAct.resolve] }

/-- Event dispatch: a listener is attached for `load` only; a load failure
event finds no handler. -/
def preloadStep (hasCb : Bool) (s : PreloadState) : ScriptEv → PreloadState
  | .load => preloadOnLoad hasCb s
  | .errorEv => s

/-- Run one `preloadScript` call against a sequence of script-element events. -/
def runPreloadScript (hasCb : Bool) (evs : List ScriptEv) : PreloadState :=
  evs.foldl (preloadStep hasCb) preloadInit

/-- Observable effects of `vimeoAutoPlay` before it settles. -/
inductive VEffect where
  | loadScript (url : Str)
  | createObserver (o : ObserverRec)
deriving DecidableEq

/-- Browser world state touched by `vimeoAutoPlay`. -/
structure World where
  doc : Document
  loadedScripts : List Str
  observers : List ObserverRec

/-- The fixed Vimeo container/attribute selector. -/
def vimeoSelector : Str := ".vimeo-video-box [data-vimeo-vid]".data

def vimeoPlayerUrl : Str := "https://player.vimeo.com/api/player.js".data

/-- Model of `vimeoAutoPlay`: if no box matches, return at once with no effect;
otherwise load the player script and build one observer over all boxes with a
0.33 default threshold overridable by the options.  The await on the script
load is collapsed into sequential effects; the per-entry playback wiring is
not needed by the claims settled here. -/
def vimeoAutoPlay (w : World) (observerOptions : IOpts) : World × List VEffect :=
  let vboxes := w.doc.queryAll vimeoSelector
  if vboxes.isEmpty then (w, [])
  else
    let orec : ObserverRec :=
      { threshold := observerOptions.threshold.getD (33 / 100), targets := vboxes }
    ({ w with
        loadedScripts := w.loadedScripts ++ [vimeoPlayerUrl],
        observers := w.observers ++ [orec] },
      [.loadScript vimeoPlayerUrl, .createObserver orec])

theorem splitOnChar_ne_nil (sep : Char) (l : Str) : splitOnChar sep l ≠ [] := by
  cases l with
  | nil => simp [splitOnChar]
  | cons c rest =>
    simp only [splitOnChar]
    split
    · simp
    · split <;> simp

theorem splitOnChar_no_sep (sep : Char) :
    ∀ l : Str, sep ∉ l → splitOnChar sep l = [l] := by
  intro l
  induction l with
  | nil => intro _; rfl
  | cons c rest ih =>
    intro h
    have hc : ¬ c = sep := fun e => h (by simp [e])
    have hrest : sep ∉ rest := fun e => h (List.mem_cons_of_mem _ e)
    simp only [splitOnChar, if_neg hc, ih hrest]

theorem splitOnChar_append (sep : Char) (a b : Str) (ha : sep ∉ a) :
    splitOnChar sep (a ++ sep :: b) = a :: splitOnChar sep b := by
  induction a with
  | nil => simp [splitOnChar]
  | cons c a' ih =>
    have hc : ¬ c = sep := fun e => ha (by simp [e])
    have ha' : sep ∉ a' := fun e => ha (List.mem_cons_of_mem _ e)
    simp only [List.cons_append, splitOnChar, if_neg hc, List.append_eq]
    rw [ih ha']

theorem splitOnChar_joinChar (sep : Char) :
    ∀ ps : List Str, (∀ p ∈ ps, sep ∉ p) → ps ≠ [] →
      splitOnChar sep (joinChar sep ps) = ps := by
  intro ps
  induction ps with
  | nil => intro _ h; exact absurd rfl h
  | cons x xs ih =>
    intro hps _
    cases xs with
    | nil => exact splitOnChar_no_sep sep x (hps x (by simp))
    | cons y ys =>
      have hx : sep ∉ x := hps x (by simp)
      have : joinChar sep (x :: y :: ys) = x ++ sep :: joinChar sep (y :: ys) := rfl
      rw [this, splitOnChar_append sep x _ hx,
        ih (fun p hp => hps p (List.mem_cons_of_mem _ hp)) (by simp)]

theorem notMem_joinChar (sep c : Char) (ps : List Str) (hc : c ≠ sep)
    (h : ∀ p ∈ ps, c ∉ p) : c ∉ joinChar sep ps := by
  induction ps with
  | nil => simp [joinChar]
  | cons x xs ih =>
    cases xs with
    | nil => exact h x (by simp)
    | cons y ys =>
      have : joinChar sep (x :: y :: ys) = x ++ sep :: joinChar sep (y :: ys) := rfl
      rw [this]
      intro hmem
      rcases List.mem_append.mp hmem with hx | hrest
      · exact h x (by simp) hx
      · rcases List.mem_cons.mp hrest with e | hj
        · exact hc e
        · exact ih (fun p hp => h p (List.mem_cons_of_mem _ hp)) hj

theorem decode_cons_ne (c : Char) (rest : Str) (h : c ≠ '%') :
    decodeURIComponentChars (c :: rest) = c :: decodeURIComponentChars rest := by
  rw [decodeURIComponentChars.eq_def]
  split
  · simp_all
  · rename_i heq; rw [List.cons.injEq] at heq; exact absurd heq.1 h
  · rename_i heq; rw [List.cons.injEq] at heq
    rw [heq.1, heq.2]

theorem decode_percent (c1 c2 : Char) (r : Str) (h lo : Nat)
    (h1 : hexVal c1 = some h) (h2 : hexVal c2 = some lo) :
    decodeURIComponentChars ('%' :: c1 :: c2 :: r) =
      Char.ofNat (16 * h + lo) :: decodeURIComponentChars r := by
  simp [decodeURIComponentChars, h1, h2]

theorem hexVal_hexDigitCharU (n : Nat) (h : n < 16) :
    hexVal (hexDigitCharU n) = some n := by
  interval_cases n <;> decide

theorem unreservedURI_ne_percent (c : Char) (h : unreservedURI c = true) : c ≠ '%' := by
  intro e; subst e; exact absurd h (by decide)

theorem decode_encodeChar (c : Char) (rest : Str) :
    decodeURIComponentChars (encodeChar c ++ rest) = c :: decodeURIComponentChars rest := by
  by_cases hu : unreservedURI c = true
  · rw [encodeChar, if_pos hu]
    exact decode_cons_ne c rest (unreservedURI_ne_percent c hu)
  · by_cases hb : c.toNat < 256
    · rw [encodeChar, if_neg hu, if_pos hb]
      have hdiv : c.toNat / 16 < 16 := by omega
      have hmod : c.toNat % 16 < 16 := Nat.mod_lt _ (by omega)
      rw [List.cons_append, List.cons_append, List.cons_append, List.nil_append,
        decode_percent _ _ _ _ _ (hexVal_hexDigitCharU _ hdiv) (hexVal_hexDigitCharU _ hmod)]
      congr 1
      rw [Nat.div_add_mod]
      exact Char.ofNat_toNat c
    · rw [encodeChar, if_neg hu, if_neg hb]
      have hc : c ≠ '%' := by
        intro e; subst e; exact hb (by decide)
      exact decode_cons_ne c rest hc

theorem decode_encode (s : Str) :
    decodeURIComponentChars (encodeURIComponentChars s) = s := by
  induction s with
  | nil => rfl
  | cons c rest ih =>
    show decodeURIComponentChars (encodeChar c ++ encodeURIComponentChars rest) = c :: rest
    rw [decode_encodeChar, ih]

theorem notMem_encodeChar (c x : Char) (hx : unreservedURI x = false)
    (hp : x ≠ '%') (hh : ∀ n, n < 16 → x ≠ hexDigitCharU n) (hsmall : x.toNat < 256) :
    x ∉ encodeChar c := by
  by_cases hu : unreservedURI c = true
  · rw [encodeChar, if_pos hu]
    intro hmem
    rw [List.mem_singleton] at hmem
    rw [hmem] at hx
    rw [hu] at hx
    exact Bool.true_eq_false.mp hx
  · by_cases hb : c.toNat < 256
    · rw [encodeChar, if_neg hu, if_pos hb]
      intro hmem
      have hdiv : c.toNat / 16 < 16 := by omega
      have hmod : c.toNat % 16 < 16 := Nat.mod_lt _ (by omega)
      simp only [List.mem_cons, List.not_mem_nil, or_false] at hmem
      rcases hmem with h1 | h1 | h1
      · exact hp h1
      · exact hh _ hdiv h1
      · exact hh _ hmod h1
    · rw [encodeChar, if_neg hu, if_neg hb]
      intro hmem
      rw [List.mem_singleton] at hmem
      rw [hmem] at hsmall
      omega

theorem notMem_encode (s : Str) (x : Char) (hx : unreservedURI x = false)
    (hp : x ≠ '%') (hh : ∀ n, n < 16 → x ≠ hexDigitCharU n) (hsmall : x.toNat < 256) :
    x ∉ encodeURIComponentChars s := by
  induction s with
  | nil => simp [encodeURIComponentChars]
  | cons c rest ih =>
    show x ∉ encodeChar c ++ encodeURIComponentChars rest
    intro hmem
    rcases List.mem_append.mp hmem with h1 | h2
    · exact notMem_encodeChar c x hx hp hh hsmall h1
    · exact ih h2

theorem amp_notMem_encode (s : Str) : '&' ∉ encodeURIComponentChars s :=
  notMem_encode s '&' (by decide) (by decide) (by decide) (by decide)

theorem eq_notMem_encode (s : Str) : '=' ∉ encodeURIComponentChars s :=
  notMem_encode s '=' (by decide) (by decide) (by decide) (by decide)

theorem qmark_notMem_encode (s : Str) : '?' ∉ encodeURIComponentChars s :=
  notMem_encode s '?' (by decide) (by decide) (by decide) (by decide)

theorem digitCharOf_toNat (d : Nat) (h : d < 10) : (digitCharOf d).toNat = 48 + d := by
  interval_cases d <;> decide

theorem digitCharOf_isDigit (d : Nat) (h : d < 10) : (digitCharOf d).isDigit = true := by
  interval_cases d <;> decide

theorem digitCharOf_ne_zeroChar (d : Nat) (h : d < 10) (hd : d ≠ 0) :
    digitCharOf d ≠ '0' := by
  interval_cases d <;> simp_all <;> decide

theorem natCharsFuel_digits : ∀ fuel n, n ≤ fuel →
    natCharsFuel fuel n = (Nat.digits 10 n).reverse.map digitCharOf := by
  intro fuel
  induction fuel with
  | zero =>
    intro n h
    have hn : n = 0 := by omega
    rw [hn]
    simp [natCharsFuel]
  | succ f ih =>
    intro n h
    by_cases hn : n = 0
    · rw [hn]; simp [natCharsFuel]
    · rw [natCharsFuel, if_neg hn,
        Nat.digits_def' (by norm_num : 1 < 10) (Nat.pos_of_ne_zero hn),
        List.reverse_cons, List.map_append,
        ih (n / 10) (by
          have := Nat.div_lt_self (Nat.pos_of_ne_zero hn) (by norm_num : 1 < 10)
          omega)]
      rfl

theorem natChars_digits (n : Nat) :
    natChars n = if n = 0 then ['0'] else (Nat.digits 10 n).reverse.map digitCharOf := by
  rw [natChars]
  by_cases hn : n = 0
  · rw [if_pos hn, if_pos hn]
  · rw [if_neg hn, if_neg hn, natCharsFuel_digits n n (by omega)]

theorem natChars_ne_nil (n : Nat) : natChars n ≠ [] := by
  rw [natChars_digits]
  split
  · simp
  · rename_i hn
    simp only [ne_eq, List.map_eq_nil_iff, List.reverse_eq_nil_iff]
    exact Nat.digits_ne_nil_iff_ne_zero.mpr hn

theorem natChars_all_digits (n : Nat) : ∀ c ∈ natChars n, c.isDigit = true := by
  intro c hc
  rw [natChars_digits] at hc
  split at hc
  · rw [List.mem_singleton] at hc
    rw [hc]; decide
  · rw [List.mem_map] at hc
    obtain ⟨d, hd, rfl⟩ := hc
    rw [List.mem_reverse] at hd
    exact digitCharOf_isDigit d (Nat.digits_lt_base (by omega) hd)

theorem legalNatChars_cons (c : Char) (cs : Str) (h : c ≠ '0') :
    legalNatChars (c :: cs) = true := by
  rw [legalNatChars.eq_def]
  split
  · rename_i heq; simp at heq
  · rename_i heq; rw [List.cons.injEq] at heq; exact absurd heq.1 h
  · rfl

theorem legalNatChars_natChars (n : Nat) : legalNatChars (natChars n) = true := by
  rw [natChars_digits]
  split
  · rfl
  · rename_i hn
    have hne : Nat.digits 10 n ≠ [] := Nat.digits_ne_nil_iff_ne_zero.mpr hn
    have hlt : (Nat.digits 10 n).getLast hne < 10 :=
      Nat.digits_lt_base (by omega) (List.getLast_mem hne)
    have hnz : (Nat.digits 10 n).getLast hne ≠ 0 := Nat.getLast_digit_ne_zero 10 hn
    rcases hrev : (Nat.digits 10 n).reverse with _ | ⟨d, ds⟩
    · rw [List.reverse_eq_nil_iff] at hrev
      exact absurd hrev hne
    · have hd : d = (Nat.digits 10 n).getLast hne := by
        have h1 := List.head?_reverse (Nat.digits 10 n)
        rw [hrev, List.getLast?_eq_getLast _ hne] at h1
        simp only [List.head?_cons, Option.some.injEq] at h1
        exact h1
      rw [List.map_cons]
      exact legalNatChars_cons _ _
        (by rw [hd]; exact digitCharOf_ne_zeroChar _ hlt hnz)

theorem foldl_digitCharOf (ds : List Nat) (h : ∀ d ∈ ds, d < 10) (a : Nat) :
    List.foldl (fun a c => 10 * a + (c.toNat - 48)) a (ds.map digitCharOf) =
      a * 10 ^ ds.length + Nat.ofDigits 10 ds.reverse := by
  induction ds generalizing a with
  | nil => simp [Nat.ofDigits]
  | cons d tl ih =>
    have hd : d < 10 := h d (by simp)
    have h48 : ∀ b : Nat, 10 * b + ((digitCharOf d).toNat - 48) = 10 * b + d := by
      intro b; rw [digitCharOf_toNat d hd]; omega
    rw [List.map_cons, List.foldl_cons, h48,
      ih (fun x hx => h x (List.mem_cons_of_mem _ hx)) (10 * a + d),
      List.reverse_cons, Nat.ofDigits_append, Nat.ofDigits_singleton]
    simp only [List.length_cons, List.length_reverse]
    ring

theorem natFromDigitChars_natChars (n : Nat) : natFromDigitChars (natChars n) = n := by
  rw [natChars_digits]
  split
  · rename_i hn; rw [hn]; rfl
  · rw [natFromDigitChars,
      foldl_digitCharOf _ (fun d hd => Nat.digits_lt_base (by omega)
        (List.mem_reverse.mp hd)) 0,
      List.reverse_reverse, Nat.ofDigits_digits]
    simp

theorem takeWhile_append_of_all (p : Char → Bool) (l₁ l₂ : Str)
    (h : ∀ c ∈ l₁, p c = true) (h2 : ∀ c, l₂.head? = some c → p c = false) :
    (l₁ ++ l₂).takeWhile p = l₁ ∧ (l₁ ++ l₂).dropWhile p = l₂ := by
  induction l₁ with
  | nil =>
    cases l₂ with
    | nil => exact ⟨rfl, rfl⟩
    | cons c t =>
      have := h2 c rfl
      simp [List.takeWhile_cons, List.dropWhile_cons, this]
  | cons c t ih =>
    have hc : p c = true := h c (by simp)
    have ⟨iht, ihd⟩ := ih (fun x hx => h x (List.mem_cons_of_mem _ hx))
    simp [List.takeWhile_cons, List.dropWhile_cons, hc, iht, ihd]

theorem escapeChar_spec (c : Char) :
    (escapeChar c = [c] ∧ c ≠ '"' ∧ c ≠ '\\') ∨
      (∃ e, escapeChar c = ['\\', e] ∧ unescapeChar e = some c) := by
  rw [escapeChar]
  split_ifs with h1 h2 h3 h4 h5 h6 h7
  · exact Or.inr ⟨'"', rfl, by rw [h1]; rfl⟩
  · exact Or.inr ⟨'\\', rfl, by rw [h2]; rfl⟩
  · exact Or.inr ⟨'n', rfl, by rw [h3]; rfl⟩
  · exact Or.inr ⟨'t', rfl, by rw [h4]; rfl⟩
  · exact Or.inr ⟨'r', rfl, by rw [h5]; rfl⟩
  · exact Or.inr ⟨'b', rfl, by rw [h6]; rfl⟩
  · exact Or.inr ⟨'f', rfl, by rw [h7]; rfl⟩
  · exact Or.inl ⟨rfl, h1, h2⟩

theorem parseStrBody_escape (s : Str) (rest : Str) :
    parseStrBody (escapeStr s ++ '"' :: rest) = some (s, rest) := by
  induction s with
  | nil =>
    show parseStrBody ('"' :: rest) = some ([], rest)
    rw [parseStrBody.eq_def]
    simp
  | cons c t ih =>
    have hsp : escapeStr (c :: t) ++ '"' :: rest =
        escapeChar c ++ (escapeStr t ++ '"' :: rest) := by
      show (escapeChar c ++ escapeStr t) ++ '"' :: rest = _
      rw [List.append_assoc]
    rw [hsp]
    rcases escapeChar_spec c with ⟨he, h1, h2⟩ | ⟨e, he, hu⟩
    · rw [he]
      rw [List.singleton_append, parseStrBody.eq_def]
      simp [h1, h2, ih]
    · rw [he]
      rw [List.cons_append, List.singleton_append, parseStrBody.eq_def]
      simp [hu, ih]

theorem natChars_head (m : Nat) :
    ∃ d, d < 10 ∧ ∃ cs, natChars m = digitCharOf d :: cs := by
  rw [natChars_digits]
  split
  · exact ⟨0, by omega, [], rfl⟩
  · rename_i hm
    rcases hrev : (Nat.digits 10 m).reverse with _ | ⟨d, ds⟩
    · exact absurd (List.reverse_eq_nil_iff.mp hrev)
        (Nat.digits_ne_nil_iff_ne_zero.mpr hm)
    · refine ⟨d, ?_, ds.map digitCharOf, by simp⟩
      have hd : d ∈ (Nat.digits 10 m).reverse := by rw [hrev]; simp
      exact Nat.digits_lt_base (by omega) (List.mem_reverse.mp hd)

theorem isDigit_not_special (c : Char) (h : c.isDigit = true) :
    c ≠ 'n' ∧ c ≠ 't' ∧ c ≠ 'f' ∧ c ≠ '"' ∧ c ≠ '-' ∧ c ≠ '[' ∧ c ≠ lbraceC := by
  refine ⟨?_, ?_, ?_, ?_, ?_, ?_, ?_⟩ <;>
    exact fun e => by subst e; exact absurd h (by decide)

theorem parseV_cons (f : Nat) (c : Char) (l : Str) :
    parseV (f + 1) (c :: l) =
      parseValHead (parseV f) (parseItems f) (parseMembers f) c l := rfl

theorem parseValHead_digit (pv pi pm) (c : Char) (rest : Str) (hdig : c.isDigit = true) :
    parseValHead pv pi pm c rest =
      if legalNatChars ((c :: rest).takeWhile Char.isDigit) then
        some (.num (natFromDigitChars ((c :: rest).takeWhile Char.isDigit) : Int),
          (c :: rest).dropWhile Char.isDigit)
      else none := by
  obtain ⟨h1, h2, h3, h4, h5, h6, h7⟩ := isDigit_not_special _ hdig
  simp only [parseValHead, if_neg h1, if_neg h2, if_neg h3, if_neg h4, if_neg h5,
    if_neg h6, if_neg h7, if_pos hdig]

theorem parseV_natNum (f : Nat) (m : Nat) (rest : Str)
    (hrest : ∀ c, rest.head? = some c → c.isDigit = false) :
    parseV (f + 1) (natChars m ++ rest) = some (.num (m : Int), rest) := by
  obtain ⟨d, hd10, cs, hnat⟩ := natChars_head m
  have hdig : (digitCharOf d).isDigit = true := digitCharOf_isDigit d hd10
  have ⟨htake, hdrop⟩ := takeWhile_append_of_all Char.isDigit (natChars m) rest
    (natChars_all_digits m) hrest
  have hsplit : natChars m ++ rest = digitCharOf d :: (cs ++ rest) := by
    rw [hnat]; rfl
  rw [hsplit, parseV_cons, parseValHead_digit _ _ _ _ _ hdig, ← hsplit, htake, hdrop,
    if_pos (legalNatChars_natChars m), natFromDigitChars_natChars]

theorem parseV_intNum (f : Nat) (n : Int) (rest : Str)
    (hrest : ∀ c, rest.head? = some c → c.isDigit = false) :
    parseV (f + 1) (intChars n ++ rest) = some (.num n, rest) := by
  rw [intChars]
  split
  · rename_i hneg
    have ⟨htake, hdrop⟩ := takeWhile_append_of_all Char.isDigit (natChars n.natAbs)
      rest (natChars_all_digits _) hrest
    show parseV (f + 1) ('-' :: (natChars n.natAbs ++ rest)) = _
    rw [parseV_cons]
    simp only [parseValHead, if_neg (by decide : ¬ ('-' = 'n')),
      if_neg (by decide : ¬ ('-' = 't')), if_neg (by decide : ¬ ('-' = 'f')),
      if_neg (by decide : ¬ ('-' = '"')), if_pos rfl, if_true]
    rw [htake, hdrop, if_pos (legalNatChars_natChars _), natFromDigitChars_natChars]
    have habs : (-(n.natAbs : Int)) = n := by omega
    rw [habs]
  · rename_i hpos
    rw [parseV_natNum f n.natAbs rest hrest]
    have habs : ((n.natAbs : Int)) = n := by omega
    rw [habs]

theorem jsonChars_cons_ne_rsq (j : Json) :
    ∃ c cs, jsonChars j = c :: cs ∧ c ≠ ']' := by
  cases j with
  | null => exact ⟨'n', _, rfl, by decide⟩
  | bool b =>
    cases b
    · exact ⟨'f', _, rfl, by decide⟩
    · exact ⟨'t', _, rfl, by decide⟩
  | num n =>
    rw [show jsonChars (Json.num n) = intChars n from rfl, intChars]
    split
    · exact ⟨'-', _, rfl, by decide⟩
    · obtain ⟨d, hd, cs, hn⟩ := natChars_head n.natAbs
      refine ⟨digitCharOf d, cs, hn, fun e => ?_⟩
      have h93 := congrArg Char.toNat e
      rw [digitCharOf_toNat d hd] at h93
      have hv : (']' : Char).toNat = 93 := rfl
      omega
  | str s => exact ⟨'"', _, rfl, by decide⟩
  | arr items =>
    cases items with
    | nil => exact ⟨'[', _, rfl, by decide⟩
    | cons a b => exact ⟨'[', _, rfl, by decide⟩
  | obj members =>
    cases members with
    | nil => exact ⟨lbraceC, _, rfl, by decide⟩
    | cons m tl =>
      obtain ⟨k, v⟩ := m
      exact ⟨lbraceC, _, rfl, by decide⟩

theorem itemsChars_head_nodigit (tl : List Json) (rest : Str) :
    ∀ c, (itemsChars tl ++ ']' :: rest).head? = some c → c.isDigit = false := by
  cases tl with
  | nil =>
    intro c hc
    simp only [itemsChars, List.nil_append, List.head?_cons, Option.some.injEq] at hc
    rw [← hc]; decide
  | cons a b =>
    intro c hc
    simp only [itemsChars, List.cons_append, List.head?_cons, Option.some.injEq] at hc
    rw [← hc]; decide

theorem membersChars_head_nodigit (tl : List (Str × Json)) (rest : Str) :
    ∀ c, (membersChars tl ++ rbraceC :: rest).head? = some c → c.isDigit = false := by
  cases tl with
  | nil =>
    intro c hc
    simp only [membersChars, List.nil_append, List.head?_cons, Option.some.injEq] at hc
    rw [← hc]; decide
  | cons m b =>
    obtain ⟨k, v⟩ := m
    intro c hc
    simp only [membersChars, List.cons_append, List.head?_cons, Option.some.injEq] at hc
    rw [← hc]; decide

theorem parse_round (f : Nat) :
    (∀ j rest, (jsonChars j).length < f →
      (∀ c, rest.head? = some c → c.isDigit = false) →
      parseV f (jsonChars j ++ rest) = some (j, rest)) ∧
    (∀ ts rest, (itemsChars ts).length < f →
      parseItems f (itemsChars ts ++ ']' :: rest) = some (ts, rest)) ∧
    (∀ ms rest, (membersChars ms).length < f →
      parseMembers f (membersChars ms ++ rbraceC :: rest) = some (ms, rest)) := by
  induction f with
  | zero =>
    exact ⟨fun j rest h => absurd h (by omega),
      fun ts rest h => absurd h (by omega),
      fun ms rest h => absurd h (by omega)⟩
  | succ f ih =>
    obtain ⟨ihV, ihI, ihM⟩ := ih
    refine ⟨?_, ?_, ?_⟩
    · intro j rest hlen hrest
      cases j with
      | null => rfl
      | bool b => cases b <;> rfl
      | num n => exact parseV_intNum f n rest hrest
      | str s =>
        have hnorm : jsonChars (.str s) ++ rest = '"' :: (escapeStr s ++ '"' :: rest) := by
          show ('"' :: (escapeStr s ++ ['"'])) ++ rest = _
          simp [List.append_assoc]
        rw [hnorm, parseV_cons]
        show (parseStrBody (escapeStr s ++ '"' :: rest)).map
          (fun p => (Json.str p.1, p.2)) = _
        rw [parseStrBody_escape]
        rfl
      | arr items =>
        cases items with
        | nil => rfl
        | cons j0 tl =>
          have hnorm : jsonChars (.arr (j0 :: tl)) ++ rest =
              '[' :: (jsonChars j0 ++ (itemsChars tl ++ ']' :: rest)) := by
            show ('[' :: (jsonChars j0 ++ itemsChars tl ++ [']'])) ++ rest = _
            simp [List.append_assoc]
          have h0 : (jsonChars j0).length < f := by
            have : (jsonChars (Json.arr (j0 :: tl))).length =
                2 + (jsonChars j0).length + (itemsChars tl).length := by
              show ('[' :: (jsonChars j0 ++ itemsChars tl ++ [']'])).length = _
              simp [List.length_append]
              omega
            omega
          have htl : (itemsChars tl).length < f := by
            have : (jsonChars (Json.arr (j0 :: tl))).length =
                2 + (jsonChars j0).length + (itemsChars tl).length := by
              show ('[' :: (jsonChars j0 ++ itemsChars tl ++ [']'])).length = _
              simp [List.length_append]
              omega
            omega
          obtain ⟨c0, cs0, hc0, hne0⟩ := jsonChars_cons_ne_rsq j0
          rw [hnorm, parseV_cons]
          show (match jsonChars j0 ++ (itemsChars tl ++ ']' :: rest) with
            | ']' :: r => some (Json.arr [], r)
            | _ =>
              match parseV f (jsonChars j0 ++ (itemsChars tl ++ ']' :: rest)) with
              | none => none
              | some (j, r) =>
                match parseItems f r with
                | none => none
                | some (js, r2) => some (Json.arr (j :: js), r2)) = _
          split
          · rename_i r heq
            rw [hc0, List.cons_append] at heq
            rw [List.cons.injEq] at heq
            exact absurd heq.1 hne0
          · rw [ihV j0 _ h0 (itemsChars_head_nodigit tl rest)]
            show (match parseItems f (itemsChars tl ++ ']' :: rest) with
              | none => none
              | some (js, r2) => some (Json.arr (j0 :: js), r2)) = _
            rw [ihI tl rest htl]
      | obj members =>
        cases members with
        | nil => rfl
        | cons m tl =>
          obtain ⟨k, v⟩ := m
          have hnorm : jsonChars (.obj ((k, v) :: tl)) ++ rest =
              lbraceC :: ('"' :: (escapeStr k ++ '"' :: ':' ::
                (jsonChars v ++ (membersChars tl ++ rbraceC :: rest)))) := by
            show (lbraceC :: ('"' :: (escapeStr k ++ '"' :: ':' :: jsonChars v) ++
              membersChars tl ++ [rbraceC])) ++ rest = _
            simp [List.append_assoc]
          have hv : (jsonChars v).length < f := by
            have : (jsonChars (Json.obj ((k, v) :: tl))).length =
                5 + (escapeStr k).length + (jsonChars v).length +
                  (membersChars tl).length := by
              show (lbraceC :: ('"' :: (escapeStr k ++ '"' :: ':' :: jsonChars v) ++
                membersChars tl ++ [rbraceC])).length = _
              simp [List.length_append]
              omega
            omega
          have htl : (membersChars tl).length < f := by
            have : (jsonChars (Json.obj ((k, v) :: tl))).length =
                5 + (escapeStr k).length + (jsonChars v).length +
                  (membersChars tl).length := by
              show (lbraceC :: ('"' :: (escapeStr k ++ '"' :: ':' :: jsonChars v) ++
                membersChars tl ++ [rbraceC])).length = _
              simp [List.length_append]
              omega
            omega
          rw [hnorm, parseV_cons]
          show (match parseStrBody (escapeStr k ++ '"' :: (':' ::
              (jsonChars v ++ (membersChars tl ++ rbraceC :: rest)))) with
            | none => none
            | some (k', r1) =>
              match r1 with
              | ':' :: r2 =>
                match parseV f r2 with
                | none => none
                | some (v', r3) =>
                  match parseMembers f r3 with
                  | none => none
                  | some (ms, r4) => some (Json.obj ((k', v') :: ms), r4)
              | _ => none) = _
          rw [parseStrBody_escape]
          show (match parseV f (jsonChars v ++ (membersChars tl ++ rbraceC :: rest)) with
            | none => none
            | some (v', r3) =>
              match parseMembers f r3 with
              | none => none
              | some (ms, r4) => some (Json.obj ((k, v') :: ms), r4)) = _
          rw [ihV v _ hv (membersChars_head_nodigit tl rest)]
          show (match parseMembers f (membersChars tl ++ rbraceC :: rest) with
            | none => none
            | some (ms, r4) => some (Json.obj ((k, v) :: ms), r4)) = _
          rw [ihM tl rest htl]
    · intro ts rest hlen
      cases ts with
      | nil => rfl
      | cons j0 tl =>
        have hnorm : itemsChars (j0 :: tl) ++ ']' :: rest =
            ',' :: (jsonChars j0 ++ (itemsChars tl ++ ']' :: rest)) := by
          show (',' :: (jsonChars j0 ++ itemsChars tl)) ++ ']' :: rest = _
          simp [List.append_assoc]
        have h0 : (jsonChars j0).length < f := by
          have : (itemsChars (j0 :: tl)).length =
              1 + (jsonChars j0).length + (itemsChars tl).length := by
            show (',' :: (jsonChars j0 ++ itemsChars tl)).length = _
            simp [List.length_append]
            omega
          omega
        have htl : (itemsChars tl).length < f := by
          have : (itemsChars (j0 :: tl)).length =
              1 + (jsonChars j0).length + (itemsChars tl).length := by
            show (',' :: (jsonChars j0 ++ itemsChars tl)).length = _
            simp [List.length_append]
            omega
          omega
        rw [hnorm]
        show parseItemsHead (parseV f) (parseItems f) ','
          (jsonChars j0 ++ (itemsChars tl ++ ']' :: rest)) = _
        show (match parseV f (jsonChars j0 ++ (itemsChars tl ++ ']' :: rest)) with
          | none => none
          | some (j, r) =>
            match parseItems f r with
            | none => none
            | some (js, r2) => some (j :: js, r2)) = _
        rw [ihV j0 _ h0 (itemsChars_head_nodigit tl rest)]
        show (match parseItems f (itemsChars tl ++ ']' :: rest) with
          | none => none
          | some (js, r2) => some (j0 :: js, r2)) = _
        rw [ihI tl rest htl]
    · intro ms rest hlen
      cases ms with
      | nil => rfl
      | cons m tl =>
        obtain ⟨k, v⟩ := m
        have hnorm : membersChars ((k, v) :: tl) ++ rbraceC :: rest =
            ',' :: ('"' :: (escapeStr k ++ '"' :: ':' ::
              (jsonChars v ++ (membersChars tl ++ rbraceC :: rest)))) := by
          show ((',' :: ('"' :: (escapeStr k ++ '"' :: ':' :: jsonChars v))) ++
            membersChars tl) ++ rbraceC :: rest = _
          simp [List.append_assoc]
        have hv : (jsonChars v).length < f := by
          have : (membersChars ((k, v) :: tl)).length =
              4 + (escapeStr k).length + (jsonChars v).length +
                (membersChars tl).length := by
            show ((',' :: ('"' :: (escapeStr k ++ '"' :: ':' :: jsonChars v))) ++
              membersChars tl).length = _
            simp [List.length_append]
            omega
          omega
        have htl : (membersChars tl).length < f := by
          have : (membersChars ((k, v) :: tl)).length =
              4 + (escapeStr k).length + (jsonChars v).length +
                (membersChars tl).length := by
            show ((',' :: ('"' :: (escapeStr k ++ '"' :: ':' :: jsonChars v))) ++
              membersChars tl).length = _
            simp [List.length_append]
            omega
          omega
        rw [hnorm]
        show (match parseStrBody (escapeStr k ++ '"' :: (':' ::
            (jsonChars v ++ (membersChars tl ++ rbraceC :: rest)))) with
          | none => none
          | some (k', r1) =>
            match r1 with
            | ':' :: r2 =>
              match parseV f r2 with
              | none => none
              | some (v', r3) =>
                match parseMembers f r3 with
                | none => none
                | some (ms', r4) => some ((k', v') :: ms', r4)
            | _ => none) = _
        rw [parseStrBody_escape]
        show (match parseV f (jsonChars v ++ (membersChars tl ++ rbraceC :: rest)) with
          | none => none
          | some (v', r3) =>
            match parseMembers f r3 with
            | none => none
            | some (ms', r4) => some ((k, v') :: ms', r4)) = _
        rw [ihV v _ hv (membersChars_head_nodigit tl rest)]
        show (match parseMembers f (membersChars tl ++ rbraceC :: rest) with
          | none => none
          | some (ms', r4) => some ((k, v) :: ms', r4)) = _
        rw [ihM tl rest htl]

theorem jsonParse_jsonChars (j : Json) : jsonParse (jsonChars j) = some j := by
  rw [jsonParse]
  have h := (parse_round ((jsonChars j).length + 1)).1 j [] (by omega)
    (fun c hc => by simp at hc)
  rw [List.append_nil] at h
  rw [h]

theorem roundTripValue_non_str (v : Json) (h : ∀ s, v ≠ .str s) :
    roundTripValue v = v := by
  have hp : paramValueString v = jsonChars v := by
    cases v with
    | str s => exact absurd rfl (h s)
    | null => rfl
    | arr l => rfl
    | obj l => rfl
    | num n => rfl
    | bool b => cases b <;> rfl
  rw [roundTripValue, hp, jsonParse_jsonChars]

theorem roundTripValue_str (s : Str) :
    roundTripValue (.str s) = ((jsonParse s).map id).getD (.str s) := by
  rw [roundTripValue]
  have hp : paramValueString (Json.str s) = s := rfl
  rw [hp]
  cases jsonParse s <;> rfl

theorem decodeValue_encoded (v : Json) :
    decodeValue (some (encodeURIComponentChars (paramValueString v))) =
      roundTripValue v := by
  rw [decodeValue, roundTripValue, Option.getD_some, decode_encode]

theorem setKey_not_mem (ps : List (Str × Json)) (k : Str) (v : Json)
    (h : k ∉ ps.map Prod.fst) : setKey ps k v = ps ++ [(k, v)] := by
  induction ps with
  | nil => rfl
  | cons p rest ih =>
    obtain ⟨k', v'⟩ := p
    rw [List.map_cons] at h
    have hk : ¬ k' = k := fun e => h (List.mem_cons.mpr (Or.inl e.symm))
    have hrest : k ∉ rest.map Prod.fst := fun e => h (List.mem_cons.mpr (Or.inr e))
    rw [setKey, if_neg hk, ih hrest, List.cons_append]

theorem keys_setKey (ps : List (Str × Json)) (k : Str) (v : Json) :
    (setKey ps k v).map Prod.fst =
      if k ∈ ps.map Prod.fst then ps.map Prod.fst else ps.map Prod.fst ++ [k] := by
  induction ps with
  | nil => rfl
  | cons p rest ih =>
    obtain ⟨k', v'⟩ := p
    rw [List.map_cons]
    by_cases hk : k' = k
    · rw [setKey, if_pos hk, List.map_cons,
        if_pos (List.mem_cons.mpr (Or.inl hk.symm))]
    · rw [setKey, if_neg hk, List.map_cons, ih]
      by_cases hmem : k ∈ rest.map Prod.fst
      · rw [if_pos hmem, if_pos (List.mem_cons.mpr (Or.inr hmem))]
      · have hnc : k ∉ (k' :: rest.map Prod.fst) := by
          intro hc
          rcases List.mem_cons.mp hc with e | e
          exacts [hk e.symm, hmem e]
        rw [if_neg hmem, if_neg hnc, List.cons_append]

theorem nodup_setKey (ps : List (Str × Json)) (k : Str) (v : Json)
    (h : (ps.map Prod.fst).Nodup) : ((setKey ps k v).map Prod.fst).Nodup := by
  rw [keys_setKey]
  split
  · exact h
  · rename_i hmem
    simp [List.nodup_append, h, hmem]

theorem lookup_setKey_self (ps : List (Str × Json)) (k : Str) (v : Json) :
    lookupValue k (setKey ps k v) = some v := by
  induction ps with
  | nil =>
    show lookupValue k [(k, v)] = some v
    rw [lookupValue, List.find?_cons_of_pos _ (by simp)]
    rfl
  | cons p rest ih =>
    obtain ⟨k', v'⟩ := p
    by_cases hk : k' = k
    · rw [setKey, if_pos hk, lookupValue, List.find?_cons_of_pos _ (by simp [hk])]
      rfl
    · rw [setKey, if_neg hk, lookupValue, List.find?_cons_of_neg _ (by simp [hk])]
      exact ih

theorem lookup_setKey_other (ps : List (Str × Json)) (k k' : Str) (v : Json)
    (h : k' ≠ k) : lookupValue k' (setKey ps k v) = lookupValue k' ps := by
  induction ps with
  | nil =>
    show lookupValue k' [(k, v)] = lookupValue k' []
    rw [lookupValue, List.find?_cons_of_neg _ (by simp [Ne.symm h])]
    rfl
  | cons p rest ih =>
    obtain ⟨k0, v0⟩ := p
    by_cases hk : k0 = k
    · by_cases he : k0 = k'
      · exact absurd (he.symm.trans hk) h
      · rw [setKey, if_pos hk, lookupValue, lookupValue,
          List.find?_cons_of_neg _ (by simp [he]),
          List.find?_cons_of_neg _ (by simp [he])]
    · by_cases he : k0 = k'
      · rw [setKey, if_neg hk, lookupValue, lookupValue,
          List.find?_cons_of_pos _ (by simp [he]),
          List.find?_cons_of_pos _ (by simp [he])]
      · rw [setKey, if_neg hk, lookupValue, lookupValue,
          List.find?_cons_of_neg _ (by simp [he]),
          List.find?_cons_of_neg _ (by simp [he])]
        exact ih

theorem pairChars_ne_nil (k : Str) (v : Json) : paramPairChars (k, v) ≠ [] := by
  cases k <;> simp [paramPairChars]

theorem split_eq_pairChars (k : Str) (v : Json) (hk : '=' ∉ k) :
    splitOnChar '=' (paramPairChars (k, v)) =
      [k, encodeURIComponentChars (paramValueString v)] := by
  rw [paramPairChars, splitOnChar_append '=' k _ hk,
    splitOnChar_no_sep _ _ (eq_notMem_encode _)]

theorem qpStep_pair (acc : List (Str × Json)) (k : Str) (v : Json)
    (hk : '=' ∉ k) (hfresh : k ∉ acc.map Prod.fst) :
    qpStep acc (paramPairChars (k, v)) = acc ++ [(k, roundTripValue v)] := by
  rw [qpStep, if_neg (pairChars_ne_nil k v), pairKeyOf, pairValOf,
    split_eq_pairChars k v hk]
  show setKey acc k
    (decodeValue (some (encodeURIComponentChars (paramValueString v)))) = _
  rw [decodeValue_encoded, setKey_not_mem _ _ _ hfresh]

theorem foldl_qpStep_pairs (m : List (Str × Json)) :
    ∀ acc : List (Str × Json),
      (∀ kv ∈ m, '=' ∉ kv.1) →
      (∀ kv ∈ m, kv.1 ∉ acc.map Prod.fst) →
      (m.map Prod.fst).Nodup →
      List.foldl qpStep acc (m.map paramPairChars) =
        acc ++ m.map (fun kv => (kv.1, roundTripValue kv.2)) := by
  induction m with
  | nil => intro acc _ _ _; simp
  | cons kv0 rest ih =>
    obtain ⟨k, v⟩ := kv0
    intro acc hk hfresh hnodup
    have hnd : k ∉ rest.map Prod.fst ∧ (rest.map Prod.fst).Nodup := by
      rw [List.map_cons, List.nodup_cons] at hnodup
      exact hnodup
    rw [List.map_cons, List.foldl_cons,
      qpStep_pair acc k v (hk (k, v) (by simp)) (hfresh (k, v) (by simp))]
    rw [ih (acc ++ [(k, roundTripValue v)])
      (fun kv hkv => hk kv (List.mem_cons.mpr (Or.inr hkv)))
      (fun kv hkv => by
        rw [List.map_append]
        intro hmem
        rcases List.mem_append.mp hmem with h1 | h1
        · exact hfresh kv (List.mem_cons.mpr (Or.inr hkv)) h1
        · have he : kv.1 = k := by simpa using h1
          exact hnd.1 (he ▸ List.mem_map_of_mem Prod.fst hkv))
      hnd.2]
    simp [List.append_assoc]

theorem mem_paramPairChars (c : Char) (k : Str) (v : Json)
    (hc : c ∈ paramPairChars (k, v)) :
    c ∈ k ∨ c = '=' ∨ c ∈ encodeURIComponentChars (paramValueString v) := by
  rw [paramPairChars] at hc
  rcases List.mem_append.mp hc with h | h
  · exact Or.inl h
  · rcases List.mem_cons.mp h with h | h
    exacts [Or.inr (Or.inl h), Or.inr (Or.inr h)]

theorem queryParamAll_params2query (m : List (Str × Json))
    (hkeys : ∀ kv ∈ m, '&' ∉ kv.1 ∧ '=' ∉ kv.1 ∧ '?' ∉ kv.1)
    (hnodup : (m.map Prod.fst).Nodup) :
    queryParamAll ('?' :: params2query m) =
      m.map (fun kv => (kv.1, roundTripValue kv.2)) := by
  have hq : '?' ∉ params2query m := by
    rw [params2query]
    apply notMem_joinChar _ _ _ (by decide)
    intro p hp
    rcases List.mem_map.mp hp with ⟨kv, hkv, rfl⟩
    obtain ⟨k, v⟩ := kv
    intro hc
    rcases mem_paramPairChars _ _ _ hc with h | h | h
    · exact (hkeys (k, v) hkv).2.2 h
    · exact absurd h (by decide)
    · exact qmark_notMem_encode _ h
  have hsplit1 : (splitOnChar '?' ('?' :: params2query m)).getD 1 [] =
      params2query m := by
    rw [show splitOnChar '?' ('?' :: params2query m) =
        [] :: splitOnChar '?' (params2query m) from by
          rw [splitOnChar, if_pos rfl],
      splitOnChar_no_sep _ _ hq]
    rfl
  rw [queryParamAll, hsplit1]
  cases m with
  | nil => rfl
  | cons kv0 rest =>
    have hpairs : ∀ p ∈ ((kv0 :: rest).map paramPairChars), '&' ∉ p := by
      intro p hp
      rcases List.mem_map.mp hp with ⟨kv, hkv, rfl⟩
      obtain ⟨k, v⟩ := kv
      intro hc
      rcases mem_paramPairChars _ _ _ hc with h | h | h
      · exact (hkeys (k, v) hkv).1 h
      · exact absurd h (by decide)
      · exact amp_notMem_encode _ h
    rw [params2query, splitOnChar_joinChar '&' _ hpairs (by simp)]
    exact foldl_qpStep_pairs (kv0 :: rest) []
      (fun kv hkv => (hkeys kv hkv).2.1) (fun kv hkv => by simp) hnodup

theorem getLast?_cons_or {α : Type} (a : α) (l : List α) :
    (a :: l).getLast? = l.getLast?.or (some a) := by
  induction l generalizing a with
  | nil => rfl
  | cons b t ih =>
    rw [List.getLast?_cons_cons, ih b]
    cases h : t.getLast? <;> simp [Option.or]

theorem foldl_qpStep_inv (pairs : List Str) :
    ∀ (acc : List (Str × Json)) (k : Str), (acc.map Prod.fst).Nodup →
      ((List.foldl qpStep acc pairs).map Prod.fst).Nodup ∧
      lookupValue k (List.foldl qpStep acc pairs) =
        ((qpOccs pairs k).getLast?).or (lookupValue k acc) := by
  induction pairs with
  | nil =>
    intro acc k hacc
    refine ⟨hacc, ?_⟩
    rw [show qpOccs [] k = [] from rfl]
    rfl
  | cons kv rest ih =>
    intro acc k hacc
    rw [List.foldl_cons]
    by_cases hkv : kv = []
    · have hstep : qpStep acc kv = acc := by rw [qpStep, if_pos hkv]
      have hocc : qpOccs (kv :: rest) k = qpOccs rest k := by
        rw [qpOccs, List.filter_cons,
          show (!kv.isEmpty && (pairKeyOf kv == k)) = false from by rw [hkv]; rfl]
        simp [qpOccs]
      rw [hstep, hocc]
      exact ih acc k hacc
    · have hstep : qpStep acc kv = setKey acc (pairKeyOf kv) (pairValOf kv) := by
        rw [qpStep, if_neg hkv]
      have hne : kv.isEmpty = false := by
        cases kv
        · exact absurd rfl hkv
        · rfl
      rw [hstep]
      obtain ⟨ihn, ihl⟩ := ih (setKey acc (pairKeyOf kv) (pairValOf kv)) k
        (nodup_setKey _ _ _ hacc)
      refine ⟨ihn, ?_⟩
      rw [ihl]
      by_cases hk : pairKeyOf kv = k
      · have hocc : qpOccs (kv :: rest) k = pairValOf kv :: qpOccs rest k := by
          rw [qpOccs, List.filter_cons,
            show (!kv.isEmpty && (pairKeyOf kv == k)) = true from by
              rw [hne, hk]; simp]
          simp [qpOccs]
        rw [hocc, getLast?_cons_or, hk, lookup_setKey_self]
        cases h2 : (qpOccs rest k).getLast? <;> simp [Option.or]
      · have hocc : qpOccs (kv :: rest) k = qpOccs rest k := by
          rw [qpOccs, List.filter_cons,
            show (!kv.isEmpty && (pairKeyOf kv == k)) = false from by
              rw [hne]; simp [hk]]
          simp [qpOccs]
        rw [hocc, lookup_setKey_other _ _ _ _ (fun e => hk e.symm)]

theorem queryParamAll_nodup_last (source : Str) (k : Str) :
    ((queryParamAll source).map Prod.fst).Nodup ∧
    lookupValue k (queryParamAll source) = (keyOccurrences source k).getLast? := by
  obtain ⟨h1, h2⟩ := foldl_qpStep_inv
    (splitOnChar '&' ((splitOnChar '?' source).getD 1 [])) [] k (by simp)
  refine ⟨h1, ?_⟩
  rw [keyOccurrences]
  refine h2.trans ?_
  rw [show lookupValue k ([] : List (Str × Json)) = none from rfl]
  exact Option.or_none

theorem queryString_of_qmark (q : Str) (hq : '?' ∉ q) :
    (splitOnChar '?' ('?' :: q)).getD 1 [] = q := by
  rw [show splitOnChar '?' ('?' :: q) = [] :: splitOnChar '?' q from by
      rw [splitOnChar, if_pos rfl],
    splitOnChar_no_sep _ _ hq]
  rfl

/-- Projection used to tell distinct string payloads apart in counterexamples. -/
def strPayload : Json → Str
  | .str s => s
  | _ => []

/-- C1 (counterexample): the claim quantifies over every mapping with string
keys, but the mapping with the single key "a=b" and value 1 serializes to
"a=b=1", which parses back to the key "a" with string value "b", not to the
original mapping. -/
theorem c1_counterexample :
    queryParamAll ('?' :: params2query [("a=b".data, Json.num 1)]) =
      [("a".data, Json.str "b".data)] ∧
    ¬ (queryParamAll ('?' :: params2query [("a=b".data, Json.num 1)]) =
      [("a=b".data, Json.num 1)]) := by
  refine ⟨rfl, fun h => ?_⟩
  have h1 : queryParamAll ('?' :: params2query [("a=b".data, Json.num 1)]) =
      [("a".data, Json.str "b".data)] := rfl
  rw [h1] at h
  exact absurd (congrArg (List.map Prod.fst) h) (by decide)

/-- C1 (amended): for every mapping whose keys contain no ampersand, equals
sign or question mark, parsing the serialized query string reproduces the
mapping except that each value goes through the serialize/re-parse round
trip; that round trip is the identity on every non-string value, and a
string value comes back as its JSON decoding when it is valid JSON and
unchanged otherwise. -/
theorem c1_roundtrip (m : List (Str × Json))
    (hkeys : ∀ kv ∈ m, '&' ∉ kv.1 ∧ '=' ∉ kv.1 ∧ '?' ∉ kv.1)
    (hnodup : (m.map Prod.fst).Nodup) :
    queryParamAll ('?' :: params2query m) =
      m.map (fun kv => (kv.1, roundTripValue kv.2)) ∧
    (∀ v : Json, (∀ s, v ≠ Json.str s) → roundTripValue v = v) ∧
    (∀ s, jsonParse s = none → roundTripValue (Json.str s) = Json.str s) ∧
    (∀ s j, jsonParse s = some j → roundTripValue (Json.str s) = j) :=
  ⟨queryParamAll_params2query m hkeys hnodup,
   roundTripValue_non_str,
   fun s h => by
     rw [roundTripValue, show paramValueString (Json.str s) = s from rfl, h],
   fun s j h => by
     rw [roundTripValue, show paramValueString (Json.str s) = s from rfl, h]⟩

theorem c1_roundtrip_witness :
    queryParamAll ('?' :: params2query [("x".data, Json.num 7)]) =
      [("x".data, Json.num 7)] := by
  have h := (c1_roundtrip [("x".data, Json.num 7)] (by decide) (by decide)).1
  rw [h]
  rfl

/-- C2 (counterexample): parsing "a=1&b=hello&c=" does produce the key "c"
(with the empty-string value), so the exact key set is not just a and b. -/
theorem c2_counterexample :
    "c".data ∈ (queryParamAll "?a=1&b=hello&c=".data).map Prod.fst ∧
    ¬ ((queryParamAll "?a=1&b=hello&c=".data).map Prod.fst =
      ["a".data, "b".data]) := by
  have h1 : (queryParamAll "?a=1&b=hello&c=".data).map Prod.fst =
      ["a".data, "b".data, "c".data] := rfl
  refine ⟨by rw [h1]; decide, fun h => ?_⟩
  rw [h1] at h
  exact absurd h (by decide)

/-- C2 (amended): parsing the query string "a=1&b=hello&c=" yields exactly
the mapping a to the number 1, b to the string "hello", and c to the empty
string: the trailing pair "c=" is non-empty, so it is processed and its
URL-decoded value is the empty string (which fails JSON decoding). -/
theorem c2_exact :
    queryParamAll "?a=1&b=hello&c=".data =
      [("a".data, Json.num 1), ("b".data, Json.str "hello".data),
       ("c".data, Json.str [])] := rfl

/-- C3 (counterexample): "a=b=c" does not keep the full remainder after the
first equals sign: the value stored for "a" is "b", not "b=c". -/
theorem c3_counterexample :
    queryParamAll "?a=b=c".data = [("a".data, Json.str "b".data)] ∧
    ¬ (queryParamAll "?a=b=c".data = [("a".data, Json.str "b=c".data)]) := by
  refine ⟨rfl, fun h => ?_⟩
  have h1 : queryParamAll "?a=b=c".data = [("a".data, Json.str "b".data)] := rfl
  rw [h1] at h
  exact absurd (congrArg (List.map (fun kv => strPayload kv.2)) h) (by decide)

/-- C3 (amended): a pair is split on every equals sign and only the first two
segments are kept: the key is the text before the first '=', the value is the
segment between the first and the second '=' (everything after a second '='
is dropped), so "a=b=c" yields a bound to the decode of "b". -/
theorem c3_split_first_two (a b c : Str)
    (ha1 : '=' ∉ a) (ha2 : '&' ∉ a) (ha3 : '?' ∉ a)
    (hb1 : '=' ∉ b) (hb2 : '&' ∉ b) (hb3 : '?' ∉ b)
    (hc2 : '&' ∉ c) (hc3 : '?' ∉ c) :
    queryParamAll ('?' :: (a ++ '=' :: (b ++ '=' :: c))) =
      [(a, decodeValue (some b))] := by
  have hq : '?' ∉ (a ++ '=' :: (b ++ '=' :: c)) := by
    intro h
    rcases List.mem_append.mp h with h | h
    · exact ha3 h
    rcases List.mem_cons.mp h with h | h
    · exact absurd h (by decide)
    rcases List.mem_append.mp h with h | h
    · exact hb3 h
    rcases List.mem_cons.mp h with h | h
    · exact absurd h (by decide)
    · exact hc3 h
  have hamp : '&' ∉ (a ++ '=' :: (b ++ '=' :: c)) := by
    intro h
    rcases List.mem_append.mp h with h | h
    · exact ha2 h
    rcases List.mem_cons.mp h with h | h
    · exact absurd h (by decide)
    rcases List.mem_append.mp h with h | h
    · exact hb2 h
    rcases List.mem_cons.mp h with h | h
    · exact absurd h (by decide)
    · exact hc2 h
  rw [queryParamAll, queryString_of_qmark _ hq, splitOnChar_no_sep '&' _ hamp]
  show qpStep [] (a ++ '=' :: (b ++ '=' :: c)) = _
  have hne : (a ++ '=' :: (b ++ '=' :: c)) ≠ [] := by cases a <;> simp
  rw [qpStep, if_neg hne, pairKeyOf, pairValOf,
    splitOnChar_append '=' a _ ha1, splitOnChar_append '=' b _ hb1,
    List.headD_cons, List.getElem?_cons_succ, List.getElem?_cons_zero]
  rfl

theorem c3_split_first_two_witness :
    queryParamAll ('?' :: ("a".data ++ '=' :: ("b".data ++ '=' :: "c".data))) =
      [("a".data, decodeValue (some "b".data))] :=
  c3_split_first_two "a".data "b".data "c".data (by decide) (by decide) (by decide)
    (by decide) (by decide) (by decide) (by decide) (by decide)

/-- C4 (counterexample): a pair without '=' does not map its key to the
undefined value: decodeURIComponent coerces the undefined value to the text
"undefined", so "foo" in "foo&a=1" is mapped to the string "undefined",
a present, defined value. -/
theorem c4_counterexample :
    queryParam "foo".data "?foo&a=1".data = some (Json.str "undefined".data) ∧
    queryParam "foo".data "?foo&a=1".data ≠ none := by
  refine ⟨rfl, fun h => ?_⟩
  have h1 : queryParam "foo".data "?foo&a=1".data =
      some (Json.str "undefined".data) := rfl
  rw [h1] at h
  exact Option.noConfusion h

/-- C4 (amended): every pair without an equals sign maps its key to the
string "undefined": the missing value is the JS undefined, which
decodeURIComponent coerces to the text "undefined", and that text is not
valid JSON, so the fallback keeps it as a string. -/
theorem c4_undef_string (a : Str) (ha1 : '=' ∉ a) (ha2 : '&' ∉ a) (ha3 : '?' ∉ a)
    (hne : a ≠ []) :
    queryParamAll ('?' :: a) = [(a, Json.str "undefined".data)] := by
  rw [queryParamAll, queryString_of_qmark _ ha3, splitOnChar_no_sep '&' _ ha2]
  show qpStep [] a = _
  rw [qpStep, if_neg hne, pairKeyOf, pairValOf, splitOnChar_no_sep '=' _ ha1]
  show setKey [] a (decodeValue none) = _
  rfl

theorem c4_undef_string_witness :
    queryParamAll ('?' :: "foo".data) = [("foo".data, Json.str "undefined".data)] :=
  c4_undef_string "foo".data (by decide) (by decide) (by decide) (by decide)

/-- C5: in the mapping built by queryParam, keys are unique, and the value
found for any key is the decoded value of the latest pair carrying that key
(absent when no such pair exists): later duplicate occurrences overwrite
earlier ones. -/
theorem c5_duplicate_keys (source : Str) (k : Str) :
    ((queryParamAll source).map Prod.fst).Nodup ∧
    lookupValue k (queryParamAll source) = (keyOccurrences source k).getLast? :=
  queryParamAll_nodup_last source k

/-- C6: any input that is not a jQuery wrapper, array, node, node collection
or selector string makes arrayOfNodesWith raise the unsupported-input error
carrying the offending value, and no node sequence is returned. -/
theorem c6_unsupported (doc : Document) (v : JsPrim) :
    arrayOfNodesWith doc (NodeInput.other v) =
      .error (JsError.unsupportedInput v) ∧
    ∀ ns : List Node, arrayOfNodesWith doc (NodeInput.other v) ≠ .ok ns :=
  ⟨rfl, fun _ h => Except.noConfusion h⟩

theorem preloadOnLoad_resolved (hasCb : Bool) (s : PreloadState) :
    (preloadOnLoad hasCb s).resolved = true := rfl

theorem runPreload_resolved (hasCb : Bool) :
    ∀ (evs : List ScriptEv) (s : PreloadState),
      ((evs.foldl (preloadStep hasCb) s).resolved = true) ↔
        (s.resolved = true ∨ ScriptEv.load ∈ evs) := by
  intro evs
  induction evs with
  | nil => intro s; simp
  | cons e t ih =>
    intro s
    rw [List.foldl_cons]
    cases e with
    | load =>
      rw [ih]
      simp [preloadStep, preloadOnLoad_resolved]
    | errorEv =>
      rw [ih]
      simp [preloadStep]

/-- C7: the preload signal resolves exactly when the script element sees a
load event (an error event finds no listener, so a failed load never
resolves), and the load listener performs, in order: element removal, then
the callback when one was provided (skipped otherwise), then resolution. -/
theorem c7_preload_script (hasCb : Bool) :
    (∀ evs : List ScriptEv,
      (runPreloadScript hasCb evs).resolved = true ↔ ScriptEv.load ∈ evs) ∧
    (∀ s : PreloadState, (preloadOnLoad true s).trace =
      s.trace ++ [PAct.removeEl, PAct.callCb, PAct.resolve]) ∧
    (∀ s : PreloadState, (preloadOnLoad false s).trace =
      s.trace ++ [PAct.removeEl, PAct.resolve]) ∧
    (∀ s : PreloadState, (preloadOnLoad true s).cbRuns = s.cbRuns + 1) ∧
    (∀ s : PreloadState, (preloadOnLoad false s).cbRuns = s.cbRuns) := by
  refine ⟨?_, ?_, ?_, fun s => rfl, fun s => rfl⟩
  · intro evs
    rw [runPreloadScript, runPreload_resolved hasCb evs preloadInit]
    simp [preloadInit]
  · intro s
    simp [preloadOnLoad, List.append_assoc]
  · intro s
    simp [preloadOnLoad, List.append_assoc]

/-- C8: with no element matching the Vimeo container/attribute selector,
vimeoAutoPlay returns at once with the world unchanged and an empty effect
trace: no script load, no observer construction, no DOM change. -/
theorem c8_vimeo_no_boxes (w : World) (opts : IOpts)
    (h : w.doc.queryAll vimeoSelector = []) :
    vimeoAutoPlay w opts = (w, []) := by
  rw [vimeoAutoPlay, h]
  rfl

theorem c8_vimeo_no_boxes_witness :
    vimeoAutoPlay { doc := ⟨fun _ => []⟩, loadedScripts := [], observers := [] } {} =
      ({ doc := ⟨fun _ => []⟩, loadedScripts := [], observers := [] }, []) :=
  c8_vimeo_no_boxes _ _ rfl

theorem exitCall_mem_callback (hasYes hasNo : Bool) (entries : List IOEntry)
    (t : Node) :
    HandlerCall.exitCall t ∈ intersectionCallback hasYes hasNo entries ↔
      (hasNo = true ∧ ∃ e ∈ entries, e.target = t ∧ e.isIntersecting = false) := by
  induction entries with
  | nil => simp [intersectionCallback]
  | cons e rest ih =>
    rw [show intersectionCallback hasYes hasNo (e :: rest) =
      (if e.isIntersecting then
        (if hasYes then [HandlerCall.enter e.target] else [])
       else (if hasNo then [HandlerCall.exitCall e.target] else [])) ++
        intersectionCallback hasYes hasNo rest from rfl,
      List.mem_append]
    constructor
    · intro h
      rcases h with h | h
      · by_cases hi : e.isIntersecting = true
        · rw [if_pos hi] at h
          cases hasYes <;> simp at h
        · have hf : e.isIntersecting = false := by
            revert hi; cases e.isIntersecting <;> simp
          rw [if_neg hi] at h
          cases hn : hasNo
          · rw [hn] at h; simp at h
          · rw [hn, if_pos rfl, List.mem_singleton] at h
            injection h with ht
            exact ⟨rfl, e, List.mem_cons_self e rest, ht.symm, hf⟩
      · obtain ⟨hn, e', he', hp⟩ := ih.mp h
        exact ⟨hn, e', List.mem_cons_of_mem _ he', hp⟩
    · rintro ⟨hn, e', he', ht, hf⟩
      rcases List.mem_cons.mp he' with rfl | he'
      · refine Or.inl ?_
        rw [hf, hn]
        simp [ht]
      · exact Or.inr (ih.mpr ⟨hn, e', he', ht, hf⟩)

/-- C9: watchIntersection builds its observer with threshold 1 unless the
options carry a threshold, in which case that value wins; and the callback
invokes the exit handler exactly for non-intersecting entries when an exit
handler is present, and never when it is absent. -/
theorem c9_watch_intersection :
    (∀ (doc : Document) (targets : NodeInput) (opts : IOpts) (obs : ObserverRec),
      watchIntersection doc targets opts = .ok obs →
        obs.threshold = opts.threshold.getD 1) ∧
    (∀ (hasYes hasNo : Bool) (entries : List IOEntry) (t : Node),
      HandlerCall.exitCall t ∈ intersectionCallback hasYes hasNo entries ↔
        (hasNo = true ∧ ∃ e ∈ entries, e.target = t ∧ e.isIntersecting = false)) := by
  constructor
  · intro doc targets opts obs h
    rw [watchIntersection] at h
    cases harr : arrayOfNodesWith doc targets with
    | error e => rw [harr] at h; exact Except.noConfusion h
    | ok nodes =>
      rw [harr] at h
      have h2 := Except.ok.inj h
      rw [← h2]
  · exact exitCall_mem_callback

theorem c9_watch_intersection_witness :
    ({ threshold := 1 / 2, targets := [⟨0⟩] } : ObserverRec).threshold =
      (({ threshold := some (1 / 2) } : IOpts).threshold.getD 1) :=
  c9_watch_intersection.1 ⟨fun _ => []⟩ (NodeInput.node ⟨0⟩)
    { threshold := some (1 / 2) } { threshold := 1 / 2, targets := [⟨0⟩] } rfl

/-- C10: each serialized pair is the raw key, verbatim and unencoded, then
'=', then the percent-encoded serialized value; a key containing '&'
corrupts the output: serializing the key "a&b" and re-parsing yields the
keys "a" and "b" instead. -/
theorem c10_keys_not_encoded :
    (∀ (k : Str) (v : Json),
      paramPairChars (k, v) =
        k ++ '=' :: encodeURIComponentChars (paramValueString v)) ∧
    (∀ m : List (Str × Json), params2query m = joinChar '&' (m.map paramPairChars)) ∧
    queryParamAll ('?' :: params2query [("a&b".data, Json.num 1)]) =
      [("a".data, Json.str "undefined".data), ("b".data, Json.num 1)] ∧
    ¬ ("a&b".data ∈
      (queryParamAll ('?' :: params2query [("a&b".data, Json.num 1)])).map Prod.fst) := by
  refine ⟨fun k v => rfl, fun m => rfl, rfl, fun h => ?_⟩
  have h1 : (queryParamAll ('?' :: params2query
      [("a&b".data, Json.num 1)])).map Prod.fst = ["a".data, "b".data] := rfl
  rw [h1] at h
  exact absurd h (by decide)
